import Mathlib

/-
Verification of the convolution core of image.c (2D-Graphics-Project).

The shallow embedding below translates the pixel data model, the
convolve / convolve_threader pair, the kernel presets, the canny
gradient combination and the pointwise stages of image.c into Lean.
C `int` values are modelled as `ℤ`, `uint8_t` channel values as `ℕ`
(with the [0,255] bound carried as a hypothesis where a theorem needs
it), and `double` kernel weights as exact rationals `ℚ`.
-/

/-- RGB pixel: the three `uint8_t` channels of `pixel_info` (image.c:67-72).
Channels are modelled as naturals; the C type guarantees values in
[0,255], which theorems take as an explicit hypothesis where needed. -/
structure Pixel where
  red : ℕ
  green : ℕ
  blue : ℕ
deriving DecidableEq

/-- A pixel buffer, indexed `buf y x` like `pixel_array[y][x]` in
image.c (row first, then column; `int` indices modelled as `ℤ`). -/
abbrev Buf := ℤ → ℤ → Pixel

/-- A 3x3 convolution kernel, `double kernel[3][3]` in image.c, read as
`k i j` for `kernel[i][j]`; the real weights are modelled as exact
rationals. Only the indices 0..2 are ever read by the code. -/
abbrev Kernel := ℕ → ℕ → ℚ

/-- Number of worker threads spawned by convolve (image.c:30). -/
def NUM_THREADS : ℕ := 20

/-- Largest channel value, MAX_COLOR (image.c:29). -/
def MAX_COLOR : ℕ := 255

/-- Cutoff used by set_dim_to_black, HIGH_PASS_THRESHOLD (image.c:47). -/
def HIGH_PASS_THRESHOLD : ℕ := 60

/-- Border handling of convolve_threader (image.c:625-631): starting
from the raw neighbour coordinate `c` on an axis of length `n`, first
`if (f < 0) f *= -1;`, then `if (f >= n) f -= (f - n + 1) * 2;`,
applied in this order. -/
def reflect (n c : ℤ) : ℤ :=
  let c1 := if c < 0 then -c else c
  if c1 ≥ n then c1 - (c1 - n + 1) * 2 else c1

/-- Reading `pixel_array[fy][fx]`. The C source performs this access
unchecked; when the image is a single pixel wide or tall the reflected
index can be -1, an out-of-bounds read (undefined behavior in C). The
model returns a fixed junk pixel for any out-of-range access. -/
def fetch (W H : ℤ) (src : Buf) (fy fx : ℤ) : Pixel :=
  if 0 ≤ fy ∧ fy < H ∧ 0 ≤ fx ∧ fx < W then src fy fx else ⟨0, 0, 0⟩

/-- One tap of the accumulation, `(int)(channel * kernel[m_y][m_x])`
(image.c:635-637). The C cast from double to int truncates toward
zero; for an integer `p` and an exact rational weight `w`, truncation
toward zero of `p * w = (p * w.num) / w.den` (with `w.den > 0`) is
exactly t-division of `p * w.num` by `w.den`, i.e. `Int.tdiv`. -/
def truncMulInt (p : ℤ) (w : ℚ) : ℤ := Int.tdiv (p * w.num) (w.den : ℤ)

/-- The completed per-channel sum of the nine taps for output pixel
(x, y): the `yy`/`xx` loops of convolve_threader (image.c:621-639).
The loop variables are rewritten as `yy = y - 1 + dy`,
`xx = x - 1 + dx` with `dy, dx ∈ {0, 1, 2}` (radius 1), so the kernel
row index `m_y = y - yy + radius` becomes `2 - dy` and the column index
`m_x = xx - x + radius` becomes `dx`. -/
def convChan (W H : ℤ) (src : Buf) (k : Kernel) (x y : ℤ) (ch : Pixel → ℕ) : ℤ :=
  ((List.range 3).map fun (dy : ℕ) =>
    ((List.range 3).map fun (dx : ℕ) =>
      truncMulInt
        (ch (fetch W H src (reflect H (y - 1 + dy)) (reflect W (x - 1 + dx))))
        (k (2 - dy) dx)).sum).sum

/-- Saturation of a completed channel sum (image.c:640-645): clamp
above at MAX_COLOR, clamp below at 0, then store into a `uint8_t`. -/
def clamp255 (v : ℤ) : ℕ := (max 0 (min 255 v)).toNat

/-- One output pixel of the convolution: the body of the `x` loop of
convolve_threader (image.c:620-648). -/
def convolvePixel (W H : ℤ) (src : Buf) (k : Kernel) (x y : ℤ) : Pixel :=
  ⟨clamp255 (convChan W H src k x y Pixel.red),
   clamp255 (convChan W H src k x y Pixel.green),
   clamp255 (convChan W H src k x y Pixel.blue)⟩

/-- The buffers visible to the workers: the shared read-only source
`pixel_array` and the destination `new_pixel_array`; a destination cell
is `none` until some worker writes it. -/
structure ConvState where
  srcBuf : Buf
  dstBuf : ℤ → ℤ → Option Pixel

/-- One worker, convolve_threader (image.c:597-652): it writes
`convolvePixel` of the source buffer into every destination cell
(y, x) with `start_y ≤ y < end_y` and `0 ≤ x < W` and touches nothing
else; in particular the source buffer is left exactly as it was. -/
def convolve_threader (W H : ℤ) (k : Kernel) (s e : ℤ) (st : ConvState) : ConvState :=
  { srcBuf := st.srcBuf
    dstBuf := fun y x =>
      if s ≤ y ∧ y < e ∧ 0 ≤ x ∧ x < W then some (convolvePixel W H st.srcBuf k x y)
      else st.dstBuf y x }

/-- Start row of band `i` of `T` (image.c:574,583): the C expression
`image_height / NUM_THREADS * i` with C `int` division, i.e.
t-division. -/
def bandStart (H : ℤ) (T i : ℕ) : ℤ := Int.tdiv H T * i

/-- End row (exclusive) of band `i` of `T` (image.c:575,584): every
band ends at `image_height / NUM_THREADS * (i + 1)` except the last,
which runs to `image_height` and so absorbs the remainder. -/
def bandEnd (H : ℤ) (T i : ℕ) : ℤ :=
  if i = T - 1 then H else Int.tdiv H T * (i + 1)

/-- Worker `i` run on the shared state. -/
def bandStep (W H : ℤ) (k : Kernel) (T : ℕ) (st : ConvState) (i : ℕ) : ConvState :=
  convolve_threader W H k (bandStart H T i) (bandEnd H T i) st

/-- Running the `T` workers of convolve (image.c:569-593). The C code
runs them concurrently; each one writes a pure function of the shared
read-only source into its own cells, so the final buffer contents do
not depend on interleaving and the run is modelled as a fold in band
order. -/
def convolveBands (W H : ℤ) (k : Kernel) (T : ℕ) (st : ConvState) : ConvState :=
  (List.range T).foldl (bandStep W H k T) st

/-- Failure taxonomy the specification assigns to convolve. -/
inductive ConvError where
  | AllocationError
  | InvalidDimensions
deriving DecidableEq

/-- Entry point convolve (image.c:542-595). The source validates
nothing about the dimensions: it allocates the destination buffer (the
only failure path in the source is a failed malloc, modelled here as
allocation always succeeding) and unconditionally sets up and spawns
the NUM_THREADS workers, so the embedding always returns `ok` with the
state left by the workers, starting from an unwritten destination. -/
def convolve (W H : ℤ) (src : Buf) (k : Kernel) : Except ConvError ConvState :=
  Except.ok (convolveBands W H k NUM_THREADS ⟨src, fun _ _ => none⟩)

/-- Kernel preset built from its C initializer rows (image.c:55-64). -/
def kernelOfRows (rows : List (List ℚ)) : Kernel :=
  fun i j => (rows.getD i []).getD j 0

/-- IDENTITY_KERNEL (image.c:55). -/
def IDENTITY_KERNEL : Kernel := kernelOfRows [[0, 0, 0], [0, 1, 0], [0, 0, 0]]

/-- SOBEL_B_KERNEL (image.c:61). -/
def SOBEL_B_KERNEL : Kernel := kernelOfRows [[-1, -2, -1], [0, 0, 0], [1, 2, 1]]

/-- SOBEL_T_KERNEL (image.c:62). -/
def SOBEL_T_KERNEL : Kernel := kernelOfRows [[1, 2, 1], [0, 0, 0], [-1, -2, -1]]

/-- SOBEL_L_KERNEL (image.c:63). -/
def SOBEL_L_KERNEL : Kernel := kernelOfRows [[1, 0, -1], [2, 0, -2], [1, 0, -1]]

/-- SOBEL_R_KERNEL (image.c:64). -/
def SOBEL_R_KERNEL : Kernel := kernelOfRows [[-1, 0, 1], [-2, 0, 2], [-1, 0, 1]]

/-- The convolve output buffer for one Sobel direction, as
canny_edge_detection obtains it (image.c:715-725). -/
def sobelOut (W H : ℤ) (src : Buf) (k : Kernel) : ℤ → ℤ → Option Pixel :=
  (convolveBands W H k NUM_THREADS ⟨src, fun _ _ => none⟩).dstBuf

/-- The gradient-combination loop of canny_edge_detection
(image.c:727-740): for the flat row-major index `i` the loop reads the
four directional outputs at `sobel_*_pd[i]`, which by the row-major
layout of the convolve output buffer (`new_pixel_array[y] =
new_pixel_data + y * W`, image.c:563-567) is the cell
(y, x) = (i / W, i % W), and stores the per-channel maximum
`MAX(MAX(t, b), MAX(l, r))`. Indices here are naturals since the loop
only visits `0 ≤ i < W * H`. -/
def canny_gradient (W H : ℕ) (src : Buf) : ℕ → Pixel := fun i =>
  let x : ℤ := (i % W : ℕ)
  let y : ℤ := (i / W : ℕ)
  let t := (sobelOut W H src SOBEL_T_KERNEL y x).getD ⟨0, 0, 0⟩
  let b := (sobelOut W H src SOBEL_B_KERNEL y x).getD ⟨0, 0, 0⟩
  let l := (sobelOut W H src SOBEL_L_KERNEL y x).getD ⟨0, 0, 0⟩
  let r := (sobelOut W H src SOBEL_R_KERNEL y x).getD ⟨0, 0, 0⟩
  ⟨max (max t.red b.red) (max l.red r.red),
   max (max t.green b.green) (max l.green r.green),
   max (max t.blue b.blue) (max l.blue r.blue)⟩

/-- Pixel body of set_dim_to_black (image.c:444-458): the int average
`(r + g + b) / 3` is stored into a `uint8_t` local (hence the mod 256,
a no-op for genuine uint8 channel values), and an average strictly
below HIGH_PASS_THRESHOLD zeroes all three channels. -/
def set_dim_to_black (p : Pixel) : Pixel :=
  if ((p.red + p.green + p.blue) / 3) % 256 < HIGH_PASS_THRESHOLD then ⟨0, 0, 0⟩ else p

/-- Pixel body of invert (image.c:339-348): each channel becomes the
int `MAX_COLOR - channel`, stored back into a `uint8_t` field, i.e.
reduced mod 256 (a no-op for genuine uint8 channel values). -/
def invert (p : Pixel) : Pixel :=
  ⟨(((MAX_COLOR : ℤ) - p.red) % 256).toNat,
   (((MAX_COLOR : ℤ) - p.green) % 256).toNat,
   (((MAX_COLOR : ℤ) - p.blue) % 256).toNat⟩

/-- Saturation and single truncation of the completed real-valued sum,
in the spec order: clamp the rational to [0,255], then truncate toward
zero. Written from the spec wording of claim C1 for comparison with
the code; `Int.tdiv q.num q.den` is truncation toward zero of `q`. -/
def ratTrunc (q : ℚ) : ℤ := Int.tdiv q.num (q.den : ℤ)

/-- Clamp a rational channel sum to [0, 255] (spec wording). -/
def clampQ (q : ℚ) : ℚ := max 0 (min 255 q)

/-- Per-channel output as claim C1 states it: the real-valued sum over
`dy, dx ∈ {-1, 0, 1}` of `source[reflect(y+dy), reflect(x+dx)] *
kernel[1-dy][dx+1]`, with the completed sum saturated to [0,255] and
then truncated to an integer, both applied once at the end. -/
def specChanOut (W H : ℤ) (src : Buf) (k : Kernel) (x y : ℤ) (ch : Pixel → ℕ) : ℤ :=
  ratTrunc (clampQ
    ((([-1, 0, 1] : List ℤ).map fun dy =>
      (([-1, 0, 1] : List ℤ).map fun dx =>
        (ch (fetch W H src (reflect H (y + dy)) (reflect W (x + dx))) : ℚ)
          * k (1 - dy).toNat (dx + 1).toNat).sum).sum))

/-- The per-tap-truncated analogue of `specChanOut`, indexed the way
the claim indexes the kernel: each real product is truncated toward
zero before accumulation. Used to state the amended claim C1. -/
def tapTruncSum (W H : ℤ) (src : Buf) (k : Kernel) (x y : ℤ) (ch : Pixel → ℕ) : ℤ :=
  (([-1, 0, 1] : List ℤ).map fun dy =>
    (([-1, 0, 1] : List ℤ).map fun dx =>
      truncMulInt
        (ch (fetch W H src (reflect H (y + dy)) (reflect W (x + dx))))
        (k (1 - dy).toNat (dx + 1).toNat)).sum).sum

/-- All-ones test buffer. -/
def onesBuf : Buf := fun _ _ => ⟨1, 1, 1⟩

/-- The rational one half, as an explicit reduced fraction. -/
def half : ℚ := ⟨1, 2, by decide, by decide⟩

/-- Test kernel with weight 1/2 at `kernel[1][0]` and `kernel[1][2]`
and weight 0 elsewhere. -/
def halfPairKernel : Kernel := fun i j =>
  if i = 1 ∧ j = 0 then half else if i = 1 ∧ j = 2 then half else 0

/-- A coordinate already inside [0, n) is left unchanged by the border
reflection. -/
lemma reflect_in_range (n c : ℤ) (h0 : 0 ≤ c) (h1 : c < n) : reflect n c = c := by
  simp only [reflect]
  split_ifs <;> omega

/-- An in-range access reads the source buffer directly. -/
lemma fetch_in_range (W H : ℤ) (src : Buf) (fy fx : ℤ)
    (h1 : 0 ≤ fy) (h2 : fy < H) (h3 : 0 ≤ fx) (h4 : fx < W) :
    fetch W H src fy fx = src fy fx := by
  simp only [fetch]
  rw [if_pos ⟨h1, h2, h3, h4⟩]

/-- A zero kernel weight contributes nothing, whatever was fetched. -/
lemma truncMulInt_zero (p : ℤ) : truncMulInt p 0 = 0 := by
  simp [truncMulInt]

/-- A unit kernel weight passes the channel value through unchanged. -/
lemma truncMulInt_one (p : ℤ) : truncMulInt p 1 = p := by
  simp [truncMulInt]

/-- Workers never touch the source buffer. -/
lemma foldl_bandStep_srcBuf (W H : ℤ) (k : Kernel) (T : ℕ) (l : List ℕ) (st : ConvState) :
    (l.foldl (bandStep W H k T) st).srcBuf = st.srcBuf := by
  induction l generalizing st with
  | nil => rfl
  | cons i tl ih => rw [List.foldl_cons, ih]; rfl

/-- A destination cell covered by no band in the list keeps its prior
contents. -/
lemma foldl_bandStep_dstBuf_of_not_covered (W H : ℤ) (k : Kernel) (T : ℕ)
    (l : List ℕ) (st : ConvState) (y x : ℤ)
    (h : ∀ i ∈ l, ¬(bandStart H T i ≤ y ∧ y < bandEnd H T i ∧ 0 ≤ x ∧ x < W)) :
    (l.foldl (bandStep W H k T) st).dstBuf y x = st.dstBuf y x := by
  induction l generalizing st with
  | nil => rfl
  | cons i tl ih =>
    rw [List.foldl_cons, ih _ (fun j hj => h j (List.mem_cons_of_mem _ hj))]
    simp only [bandStep, convolve_threader]
    rw [if_neg (h i (List.mem_cons_self _ _))]

/-- A destination cell covered by some band in the list holds the
convolution of the source at that cell: every write to the cell stores
the same pure function of the shared read-only source buffer. -/
lemma foldl_bandStep_dstBuf_of_covered (W H : ℤ) (k : Kernel) (T : ℕ)
    (l : List ℕ) (st : ConvState) (y x : ℤ)
    (h : ∃ i ∈ l, bandStart H T i ≤ y ∧ y < bandEnd H T i ∧ 0 ≤ x ∧ x < W) :
    (l.foldl (bandStep W H k T) st).dstBuf y x = some (convolvePixel W H st.srcBuf k x y) := by
  induction l generalizing st with
  | nil =>
    obtain ⟨i, hi, _⟩ := h
    exact absurd hi (List.not_mem_nil i)
  | cons i tl ih =>
    rw [List.foldl_cons]
    by_cases htl : ∃ j ∈ tl, bandStart H T j ≤ y ∧ y < bandEnd H T j ∧ 0 ≤ x ∧ x < W
    · rw [ih _ htl]
      rfl
    · obtain ⟨j, hj, hcov⟩ := h
      have hji : j = i := by
        rcases List.mem_cons.mp hj with h1 | h2
        · exact h1
        · exact absurd ⟨j, h2, hcov⟩ htl
      subst hji
      rw [foldl_bandStep_dstBuf_of_not_covered W H k T tl _ y x
        (fun j2 hj2 hc => htl ⟨j2, hj2, hc⟩)]
      simp only [bandStep, convolve_threader]
      rw [if_pos hcov]

/-- Coverage of the band partition, natural-number form: with band
width `q = h / t`, every row below `h` lands in some band, the last
band absorbing the remainder. -/
lemma band_cover_nat (h t n : ℕ) (ht : 1 ≤ t) (hn : n < h) :
    ∃ i, i < t ∧ h / t * i ≤ n ∧ (i ≠ t - 1 → n < h / t * (i + 1)) := by
  by_cases hq0 : h / t = 0
  · exact ⟨t - 1, by omega, by simp [hq0], fun hne => absurd rfl hne⟩
  · have hqpos : 0 < h / t := Nat.pos_of_ne_zero hq0
    have hfloor : h / t * (n / (h / t)) ≤ n := by
      have := Nat.div_add_mod n (h / t)
      omega
    by_cases hj : t - 1 ≤ n / (h / t)
    · refine ⟨t - 1, by omega, ?_, fun hne => absurd rfl hne⟩
      exact le_trans (Nat.mul_le_mul_left (h / t) hj) hfloor
    · push_neg at hj
      refine ⟨n / (h / t), by omega, hfloor, fun _ => ?_⟩
      have hdm := Nat.div_add_mod n (h / t)
      have hm := Nat.mod_lt n hqpos
      have hmul : h / t * (n / (h / t) + 1) = h / t * (n / (h / t)) + h / t := by ring
      omega

/-- Coverage of the band partition over the integers, as convolve sets
the bands up. -/
lemma bands_cover (H : ℤ) (T : ℕ) (y : ℤ) (hT : 1 ≤ T) (hy0 : 0 ≤ y) (hyH : y < H) :
    ∃ i ∈ List.range T, bandStart H T i ≤ y ∧ y < bandEnd H T i := by
  obtain ⟨h, rfl⟩ : ∃ h : ℕ, H = (h : ℤ) := ⟨H.toNat, by omega⟩
  obtain ⟨n, rfl⟩ : ∃ n : ℕ, y = (n : ℤ) := ⟨y.toNat, by omega⟩
  have hn : n < h := by exact_mod_cast hyH
  obtain ⟨i, hit, h1, h2⟩ := band_cover_nat h T n hT hn
  refine ⟨i, List.mem_range.mpr hit, ?_, ?_⟩
  · unfold bandStart
    rw [← Int.ofNat_tdiv]
    exact_mod_cast h1
  · unfold bandEnd
    by_cases hlast : i = T - 1
    · rw [if_pos hlast]
      exact_mod_cast hn
    · rw [if_neg hlast, ← Int.ofNat_tdiv]
      exact_mod_cast h2 hlast

/-- For a nonnegative height every band stays inside [0, H). -/
lemma bands_bounds (H : ℤ) (hH : 0 ≤ H) (T i : ℕ) (hi : i < T) :
    0 ≤ bandStart H T i ∧ bandEnd H T i ≤ H := by
  obtain ⟨h, rfl⟩ : ∃ h : ℕ, H = (h : ℤ) := ⟨H.toNat, by omega⟩
  constructor
  · unfold bandStart
    rw [← Int.ofNat_tdiv]
    exact_mod_cast Nat.zero_le _
  · unfold bandEnd
    split_ifs
    · exact le_refl _
    · rw [← Int.ofNat_tdiv]
      have : h / T * (i + 1) ≤ h :=
        le_trans (Nat.mul_le_mul_left (h / T) (by omega)) (Nat.div_mul_le_self h T)
      exact_mod_cast this

/-- The T-worker run writes the convolution into every in-range
destination cell. -/
lemma convolveBands_dstBuf_in_range (W H : ℤ) (src : Buf) (k : Kernel) (T : ℕ)
    (hT : 1 ≤ T) (y x : ℤ) (hy0 : 0 ≤ y) (hyH : y < H) (hx0 : 0 ≤ x) (hxW : x < W) :
    (convolveBands W H k T ⟨src, fun _ _ => none⟩).dstBuf y x
      = some (convolvePixel W H src k x y) := by
  obtain ⟨i, hi, hcov⟩ := bands_cover H T y hT hy0 hyH
  exact foldl_bandStep_dstBuf_of_covered W H k T _ _ y x ⟨i, hi, hcov.1, hcov.2, hx0, hxW⟩

/-- The T-worker run writes nothing outside the W x H rectangle. -/
lemma convolveBands_dstBuf_out_of_range (W H : ℤ) (hH : 0 ≤ H) (src : Buf) (k : Kernel)
    (T : ℕ) (y x : ℤ) (h : y < 0 ∨ H ≤ y ∨ x < 0 ∨ W ≤ x) :
    (convolveBands W H k T ⟨src, fun _ _ => none⟩).dstBuf y x = none := by
  apply foldl_bandStep_dstBuf_of_not_covered
  intro i hi hcov
  obtain ⟨hs, he, hx0, hxW⟩ := hcov
  have hb := bands_bounds H hH T i (List.mem_range.mp hi)
  omega

/-- Loop-order sum and spec-order sum of the nine truncated taps agree:
the code's `m_y = 2 - dy, m_x = dx` indexing over `dy, dx ∈ {0, 1, 2}`
is the claim's `kernel[1-dy][dx+1]` indexing over `dy, dx ∈ {-1, 0, 1}`. -/
lemma convChan_eq_tapTruncSum (W H : ℤ) (src : Buf) (k : Kernel) (x y : ℤ) (ch : Pixel → ℕ) :
    convChan W H src k x y ch = tapTruncSum W H src k x y ch := by
  simp only [convChan, tapTruncSum, show List.range 3 = [0, 1, 2] from rfl,
    List.map_cons, List.map_nil, List.sum_cons, List.sum_nil,
    Nat.cast_zero, Nat.cast_one, Nat.cast_ofNat]
  norm_num
  simp only [show Int.toNat 2 = 2 from rfl]
  ring

/-- With the identity kernel the channel sum collapses to the centre
tap, the source channel itself. -/
lemma convChan_identity (W H : ℤ) (src : Buf) (x y : ℤ)
    (hy0 : 0 ≤ y) (hyH : y < H) (hx0 : 0 ≤ x) (hxW : x < W) (ch : Pixel → ℕ) :
    convChan W H src IDENTITY_KERNEL x y ch = ch (src y x) := by
  simp only [convChan, show List.range 3 = [0, 1, 2] from rfl,
    List.map_cons, List.map_nil, List.sum_cons, List.sum_nil,
    Nat.cast_zero, Nat.cast_one, Nat.cast_ofNat]
  norm_num [IDENTITY_KERNEL, kernelOfRows, truncMulInt_zero, truncMulInt_one]
  rw [reflect_in_range H y hy0 hyH, reflect_in_range W x hx0 hxW,
    fetch_in_range W H src y x hy0 hyH hx0 hxW]

/-- Saturation is the identity on a genuine channel value. -/
lemma clamp255_of_le (m : ℕ) (hm : m ≤ 255) : clamp255 (m : ℤ) = m := by
  unfold clamp255
  omega

/-- The two t-division facts needed for a nonpositive height: the band
width `H / 20` is nonpositive, and t-division rounds toward zero, so
`(H / 20) * 20` does not undershoot `H`. -/
lemma tdiv_nonpos_le (H : ℤ) (hH : H ≤ 0) :
    Int.tdiv H 20 ≤ 0 ∧ H ≤ Int.tdiv H 20 * 20 := by
  obtain ⟨n, rfl⟩ : ∃ n : ℕ, H = -(n : ℤ) := ⟨(-H).toNat, by omega⟩
  rw [show (20 : ℤ) = ((20 : ℕ) : ℤ) from rfl, Int.neg_tdiv, ← Int.ofNat_tdiv]
  have h : ((n / 20 : ℕ) : ℤ) * 20 ≤ (n : ℤ) := by exact_mod_cast Nat.div_mul_le_self n 20
  omega

/-- The explicit reduced fraction `half` is one half. -/
lemma half_eq : half = 1 / 2 := by
  unfold half
  rw [Rat.mk'_eq_divInt, Rat.divInt_eq_div]
  norm_num

/-- C2 counterexample. -/
theorem reflect_high_side_fails_spec :
    reflect 3 3 = 1 ∧ 2 * 3 - 1 - 3 = (2 : ℤ) ∧ reflect 3 3 ≠ 2 * 3 - 1 - 3 := by
  decide

/-- C2 amended. -/
theorem reflect_characterization (n c : ℤ) (hn : 2 ≤ n) (hc1 : -1 ≤ c) (hc2 : c ≤ n) :
    reflect n c = (if c < 0 then -c else if n ≤ c then 2 * n - 2 - c else c)
    ∧ 0 ≤ reflect n c ∧ reflect n c < n := by
  simp only [reflect]
  split_ifs <;> omega

/-- C2 witness. -/
theorem reflect_characterization_witness :
    reflect 3 3 = (if (3 : ℤ) < 0 then -(3 : ℤ) else if (3 : ℤ) ≤ 3 then 2 * 3 - 2 - 3 else 3)
    ∧ 0 ≤ reflect 3 3 ∧ reflect 3 3 < 3 :=
  reflect_characterization 3 3 (by norm_num) (by norm_num) (by norm_num)

/-- C5. -/
theorem reflect_one_by_one_out_of_bounds :
    reflect 1 (-1) = -1 ∧ reflect 1 1 = -1 ∧ ¬(0 ≤ reflect 1 1 ∧ reflect 1 1 < 1) := by
  decide

/-- C1 amended. -/
theorem convolve_channel_per_tap_truncation (W H : ℤ) (src : Buf) (k : Kernel)
    (y x : ℤ) (hy0 : 0 ≤ y) (hyH : y < H) (hx0 : 0 ≤ x) (hxW : x < W) :
    ∃ st, convolve W H src k = Except.ok st ∧
      st.dstBuf y x = some ⟨clamp255 (tapTruncSum W H src k x y Pixel.red),
                            clamp255 (tapTruncSum W H src k x y Pixel.green),
                            clamp255 (tapTruncSum W H src k x y Pixel.blue)⟩ := by
  refine ⟨_, rfl, ?_⟩
  rw [convolveBands_dstBuf_in_range W H src k NUM_THREADS (by norm_num [NUM_THREADS])
    y x hy0 hyH hx0 hxW]
  unfold convolvePixel
  rw [convChan_eq_tapTruncSum, convChan_eq_tapTruncSum, convChan_eq_tapTruncSum]

/-- C1 witness. -/
theorem convolve_channel_per_tap_truncation_witness :
    ∃ st, convolve 3 3 onesBuf halfPairKernel = Except.ok st ∧
      st.dstBuf 1 1 = some ⟨clamp255 (tapTruncSum 3 3 onesBuf halfPairKernel 1 1 Pixel.red),
                            clamp255 (tapTruncSum 3 3 onesBuf halfPairKernel 1 1 Pixel.green),
                            clamp255 (tapTruncSum 3 3 onesBuf halfPairKernel 1 1 Pixel.blue)⟩ :=
  convolve_channel_per_tap_truncation 3 3 onesBuf halfPairKernel 1 1
    (by norm_num) (by norm_num) (by norm_num) (by norm_num)

/-- C1 counterexample. -/
theorem convolve_spec_formula_fails :
    convolve 3 3 onesBuf halfPairKernel
        = Except.ok (convolveBands 3 3 halfPairKernel NUM_THREADS ⟨onesBuf, fun _ _ => none⟩)
    ∧ (convolveBands 3 3 halfPairKernel NUM_THREADS ⟨onesBuf, fun _ _ => none⟩).dstBuf 1 1
        = some ⟨0, 0, 0⟩
    ∧ specChanOut 3 3 onesBuf halfPairKernel 1 1 Pixel.red = 1 := by
  refine ⟨rfl, by decide, ?_⟩
  norm_num [specChanOut, ratTrunc, clampQ, fetch, reflect, onesBuf, halfPairKernel, half_eq,
    show Int.toNat 0 = 0 from rfl, show Int.toNat 1 = 1 from rfl, show Int.toNat 2 = 2 from rfl]

/-- C4. -/
theorem convolve_identity_kernel_id (W H : ℤ) (src : Buf) (y x : ℤ)
    (hy0 : 0 ≤ y) (hyH : y < H) (hx0 : 0 ≤ x) (hxW : x < W)
    (hr : (src y x).red ≤ 255) (hg : (src y x).green ≤ 255) (hb : (src y x).blue ≤ 255) :
    ∃ st, convolve W H src IDENTITY_KERNEL = Except.ok st
      ∧ st.dstBuf y x = some (src y x) := by
  refine ⟨_, rfl, ?_⟩
  rw [convolveBands_dstBuf_in_range W H src IDENTITY_KERNEL NUM_THREADS
    (by norm_num [NUM_THREADS]) y x hy0 hyH hx0 hxW]
  unfold convolvePixel
  rw [convChan_identity W H src x y hy0 hyH hx0 hxW,
    convChan_identity W H src x y hy0 hyH hx0 hxW,
    convChan_identity W H src x y hy0 hyH hx0 hxW,
    clamp255_of_le _ hr, clamp255_of_le _ hg, clamp255_of_le _ hb]

/-- C4 witness. -/
theorem convolve_identity_kernel_id_witness :
    ∃ st, convolve 2 2 onesBuf IDENTITY_KERNEL = Except.ok st
      ∧ st.dstBuf 1 1 = some (onesBuf 1 1) :=
  convolve_identity_kernel_id 2 2 onesBuf 1 1 (by norm_num) (by norm_num) (by norm_num)
    (by norm_num) (by decide) (by decide) (by decide)

/-- C3 counterexample. -/
theorem convolve_accepts_zero_dims :
    convolve 0 0 onesBuf IDENTITY_KERNEL ≠ Except.error ConvError.InvalidDimensions := by
  simp only [convolve]
  intro h
  exact Except.noConfusion h

/-- C3 amended. -/
theorem convolve_no_dimension_check (W H : ℤ) (src : Buf) (k : Kernel)
    (h : W ≤ 0 ∨ H ≤ 0) :
    ∃ st, convolve W H src k = Except.ok st ∧ ∀ y x, st.dstBuf y x = none := by
  refine ⟨_, rfl, fun y x => ?_⟩
  apply foldl_bandStep_dstBuf_of_not_covered
  intro i hi hcov
  obtain ⟨hs, he, hx0, hxW⟩ := hcov
  rcases h with hW | hH
  · omega
  · have hq := tdiv_nonpos_le H hH
    simp only [bandStart, bandEnd, NUM_THREADS, Nat.cast_ofNat] at hs he
    by_cases hlast : i = 20 - 1
    · rw [if_pos hlast] at he
      subst hlast
      norm_num at hs
      have h19 : Int.tdiv H 20 * 20 = Int.tdiv H 20 * 19 + Int.tdiv H 20 := by ring
      generalize hA : Int.tdiv H 20 * 19 = A at hs h19
      generalize hB : Int.tdiv H 20 * 20 = B at hq h19
      omega
    · rw [if_neg hlast] at he
      have hsplit : Int.tdiv H 20 * ((i : ℤ) + 1) = Int.tdiv H 20 * (i : ℤ) + Int.tdiv H 20 := by
        ring
      rw [hsplit] at he
      generalize hA : Int.tdiv H 20 * (i : ℤ) = A at hs he
      omega

/-- C3 witness. -/
theorem convolve_no_dimension_check_witness :
    ∃ st, convolve 0 5 onesBuf IDENTITY_KERNEL = Except.ok st
      ∧ ∀ y x, st.dstBuf y x = none :=
  convolve_no_dimension_check 0 5 onesBuf IDENTITY_KERNEL (Or.inl (by norm_num))

/-- C6. -/
theorem convolve_band_partition_deterministic (W H : ℤ) (src : Buf) (k : Kernel) (T : ℕ)
    (hT : 1 ≤ T) (y x : ℤ) (hy0 : 0 ≤ y) (hyH : y < H) (hx0 : 0 ≤ x) (hxW : x < W) :
    (convolveBands W H k T ⟨src, fun _ _ => none⟩).dstBuf y x
        = some (convolvePixel W H src k x y)
    ∧ (convolveBands W H k T ⟨src, fun _ _ => none⟩).dstBuf y x
        = (convolveBands W H k 1 ⟨src, fun _ _ => none⟩).dstBuf y x := by
  have h1 := convolveBands_dstBuf_in_range W H src k T hT y x hy0 hyH hx0 hxW
  have h2 := convolveBands_dstBuf_in_range W H src k 1 le_rfl y x hy0 hyH hx0 hxW
  exact ⟨h1, h1.trans h2.symm⟩

/-- C6 witness. -/
theorem convolve_band_partition_deterministic_witness :
    (convolveBands 2 2 IDENTITY_KERNEL 20 ⟨onesBuf, fun _ _ => none⟩).dstBuf 1 0
        = some (convolvePixel 2 2 onesBuf IDENTITY_KERNEL 0 1)
    ∧ (convolveBands 2 2 IDENTITY_KERNEL 20 ⟨onesBuf, fun _ _ => none⟩).dstBuf 1 0
        = (convolveBands 2 2 IDENTITY_KERNEL 1 ⟨onesBuf, fun _ _ => none⟩).dstBuf 1 0 :=
  convolve_band_partition_deterministic 2 2 onesBuf IDENTITY_KERNEL 20 (by norm_num)
    1 0 (by norm_num) (by norm_num) (by norm_num) (by norm_num)

/-- C9. -/
theorem convolve_preserves_source (W H : ℤ) (src : Buf) (k : Kernel)
    (hW : 1 ≤ W) (hH : 1 ≤ H) :
    ∃ st, convolve W H src k = Except.ok st
      ∧ (∀ y x, st.srcBuf y x = src y x)
      ∧ (∀ y x, 0 ≤ y → y < H → 0 ≤ x → x < W →
          st.dstBuf y x = some (convolvePixel W H src k x y))
      ∧ (∀ y x, y < 0 ∨ H ≤ y ∨ x < 0 ∨ W ≤ x → st.dstBuf y x = none) := by
  refine ⟨_, rfl, ?_, ?_, ?_⟩
  · intro y x
    rw [show (convolveBands W H k NUM_THREADS ⟨src, fun _ _ => none⟩).srcBuf = src from
      foldl_bandStep_srcBuf W H k NUM_THREADS _ _]
  · intro y x hy0 hyH hx0 hxW
    exact convolveBands_dstBuf_in_range W H src k NUM_THREADS (by norm_num [NUM_THREADS])
      y x hy0 hyH hx0 hxW
  · intro y x h
    exact convolveBands_dstBuf_out_of_range W H (by omega) src k NUM_THREADS y x h

/-- C9 witness. -/
theorem convolve_preserves_source_witness :
    ∃ st, convolve 2 2 onesBuf IDENTITY_KERNEL = Except.ok st
      ∧ (∀ y x, st.srcBuf y x = onesBuf y x)
      ∧ (∀ y x, 0 ≤ y → y < 2 → 0 ≤ x → x < 2 →
          st.dstBuf y x = some (convolvePixel 2 2 onesBuf IDENTITY_KERNEL x y))
      ∧ (∀ y x, y < 0 ∨ 2 ≤ y ∨ x < 0 ∨ 2 ≤ x → st.dstBuf y x = none) :=
  convolve_preserves_source 2 2 onesBuf IDENTITY_KERNEL (by norm_num) (by norm_num)

/-- C7. -/
theorem canny_gradient_channel_max (W H : ℕ) (src : Buf) (x y : ℕ)
    (hx : x < W) (hy : y < H) :
    (canny_gradient W H src (y * W + x)).red
        = max (max (convolvePixel W H src SOBEL_T_KERNEL x y).red
                   (convolvePixel W H src SOBEL_B_KERNEL x y).red)
              (max (convolvePixel W H src SOBEL_L_KERNEL x y).red
                   (convolvePixel W H src SOBEL_R_KERNEL x y).red)
    ∧ (canny_gradient W H src (y * W + x)).green
        = max (max (convolvePixel W H src SOBEL_T_KERNEL x y).green
                   (convolvePixel W H src SOBEL_B_KERNEL x y).green)
              (max (convolvePixel W H src SOBEL_L_KERNEL x y).green
                   (convolvePixel W H src SOBEL_R_KERNEL x y).green)
    ∧ (canny_gradient W H src (y * W + x)).blue
        = max (max (convolvePixel W H src SOBEL_T_KERNEL x y).blue
                   (convolvePixel W H src SOBEL_B_KERNEL x y).blue)
              (max (convolvePixel W H src SOBEL_L_KERNEL x y).blue
                   (convolvePixel W H src SOBEL_R_KERNEL x y).blue) := by
  have hW0 : 0 < W := lt_of_le_of_lt (Nat.zero_le x) hx
  have hmod : (y * W + x) % W = x := by
    rw [mul_comm y W, Nat.mul_add_mod]
    exact Nat.mod_eq_of_lt hx
  have hdiv : (y * W + x) / W = y := by
    rw [mul_comm y W, Nat.mul_add_div hW0, Nat.div_eq_of_lt hx, add_zero]
  have hT := convolveBands_dstBuf_in_range (W : ℤ) (H : ℤ) src SOBEL_T_KERNEL NUM_THREADS
    (by norm_num [NUM_THREADS]) (y : ℤ) (x : ℤ) (Int.natCast_nonneg y) (by exact_mod_cast hy)
    (Int.natCast_nonneg x) (by exact_mod_cast hx)
  have hB := convolveBands_dstBuf_in_range (W : ℤ) (H : ℤ) src SOBEL_B_KERNEL NUM_THREADS
    (by norm_num [NUM_THREADS]) (y : ℤ) (x : ℤ) (Int.natCast_nonneg y) (by exact_mod_cast hy)
    (Int.natCast_nonneg x) (by exact_mod_cast hx)
  have hL := convolveBands_dstBuf_in_range (W : ℤ) (H : ℤ) src SOBEL_L_KERNEL NUM_THREADS
    (by norm_num [NUM_THREADS]) (y : ℤ) (x : ℤ) (Int.natCast_nonneg y) (by exact_mod_cast hy)
    (Int.natCast_nonneg x) (by exact_mod_cast hx)
  have hR := convolveBands_dstBuf_in_range (W : ℤ) (H : ℤ) src SOBEL_R_KERNEL NUM_THREADS
    (by norm_num [NUM_THREADS]) (y : ℤ) (x : ℤ) (Int.natCast_nonneg y) (by exact_mod_cast hy)
    (Int.natCast_nonneg x) (by exact_mod_cast hx)
  unfold canny_gradient sobelOut
  simp only [hmod, hdiv, hT, hB, hL, hR, Option.getD_some]
  exact ⟨trivial, trivial, trivial⟩

/-- C7 witness. -/
theorem canny_gradient_channel_max_witness :
    (canny_gradient 2 2 onesBuf (1 * 2 + 0)).red
        = max (max (convolvePixel 2 2 onesBuf SOBEL_T_KERNEL 0 1).red
                   (convolvePixel 2 2 onesBuf SOBEL_B_KERNEL 0 1).red)
              (max (convolvePixel 2 2 onesBuf SOBEL_L_KERNEL 0 1).red
                   (convolvePixel 2 2 onesBuf SOBEL_R_KERNEL 0 1).red)
    ∧ (canny_gradient 2 2 onesBuf (1 * 2 + 0)).green
        = max (max (convolvePixel 2 2 onesBuf SOBEL_T_KERNEL 0 1).green
                   (convolvePixel 2 2 onesBuf SOBEL_B_KERNEL 0 1).green)
              (max (convolvePixel 2 2 onesBuf SOBEL_L_KERNEL 0 1).green
                   (convolvePixel 2 2 onesBuf SOBEL_R_KERNEL 0 1).green)
    ∧ (canny_gradient 2 2 onesBuf (1 * 2 + 0)).blue
        = max (max (convolvePixel 2 2 onesBuf SOBEL_T_KERNEL 0 1).blue
                   (convolvePixel 2 2 onesBuf SOBEL_B_KERNEL 0 1).blue)
              (max (convolvePixel 2 2 onesBuf SOBEL_L_KERNEL 0 1).blue
                   (convolvePixel 2 2 onesBuf SOBEL_R_KERNEL 0 1).blue) :=
  canny_gradient_channel_max 2 2 onesBuf 0 1 (by norm_num) (by norm_num)

/-- C8. -/
theorem set_dim_to_black_threshold (p : Pixel)
    (hr : p.red ≤ 255) (hg : p.green ≤ 255) (hb : p.blue ≤ 255) :
    ((p.red + p.green + p.blue) / 3 < HIGH_PASS_THRESHOLD → set_dim_to_black p = ⟨0, 0, 0⟩)
    ∧ (HIGH_PASS_THRESHOLD ≤ (p.red + p.green + p.blue) / 3 → set_dim_to_black p = p)
    ∧ ((p.red + p.green + p.blue) / 3 = HIGH_PASS_THRESHOLD → set_dim_to_black p = p) := by
  have hmod : ((p.red + p.green + p.blue) / 3) % 256 = (p.red + p.green + p.blue) / 3 :=
    Nat.mod_eq_of_lt (by omega)
  unfold set_dim_to_black
  rw [hmod]
  refine ⟨fun h => if_pos h, fun h => ?_, fun h => ?_⟩
  · rw [if_neg (by omega)]
  · rw [if_neg (by omega)]

/-- C8 witness. -/
theorem set_dim_to_black_threshold_witness :
    (((60 : ℕ) + 60 + 60) / 3 < HIGH_PASS_THRESHOLD →
        set_dim_to_black ⟨60, 60, 60⟩ = ⟨0, 0, 0⟩)
    ∧ (HIGH_PASS_THRESHOLD ≤ ((60 : ℕ) + 60 + 60) / 3 →
        set_dim_to_black ⟨60, 60, 60⟩ = ⟨60, 60, 60⟩)
    ∧ (((60 : ℕ) + 60 + 60) / 3 = HIGH_PASS_THRESHOLD →
        set_dim_to_black ⟨60, 60, 60⟩ = ⟨60, 60, 60⟩) :=
  set_dim_to_black_threshold ⟨60, 60, 60⟩ (by norm_num) (by norm_num) (by norm_num)

/-- The uint8 store of `MAX_COLOR - c` for a genuine channel value is
just the natural subtraction. -/
lemma invert_chan_eq (c : ℕ) (hc : c ≤ 255) :
    (((255 : ℤ) - (c : ℤ)) % 256).toNat = 255 - c := by
  rw [Int.emod_eq_of_lt (by omega) (by omega)]
  omega

/-- C10. -/
theorem invert_involutive (p : Pixel)
    (hr : p.red ≤ 255) (hg : p.green ≤ 255) (hb : p.blue ≤ 255) :
    invert (invert p) = p := by
  obtain ⟨r, g, b⟩ := p
  simp only at hr hg hb
  unfold invert MAX_COLOR
  simp only [Pixel.mk.injEq, Nat.cast_ofNat]
  refine ⟨?_, ?_, ?_⟩
  · rw [invert_chan_eq r hr, invert_chan_eq (255 - r) (by omega)]
    omega
  · rw [invert_chan_eq g hg, invert_chan_eq (255 - g) (by omega)]
    omega
  · rw [invert_chan_eq b hb, invert_chan_eq (255 - b) (by omega)]
    omega

/-- C10 witness. -/
theorem invert_involutive_witness : invert (invert ⟨3, 250, 0⟩) = ⟨3, 250, 0⟩ :=
  invert_involutive ⟨3, 250, 0⟩ (by norm_num) (by norm_num) (by norm_num)
